import Mathlib

/-!
Shallow embedding of the real-time music-theory analysis engine
(`src/svelte/services/MusicTheoryService.ts`) of the VisualMusic repository.

The service is a class with three mutable fields (`currentKey`,
`allPlayedNotes`, `activeNotes`); it is embedded as a `ServiceState`
structure with explicit state passing.  The `@tonaljs/tonal` library the
service calls into (`Note.get(...).pc`, `Scale.detect`, `Scale.get(...).notes`,
`Interval.distance`, `Interval.semitones`, `Chord.detect`, `Chord.get`,
`Key.majorKey(...).scale`) is an external dependency, not repository code;
it is embedded as an abstract interface `TonalLib` over which all theorems
are parametric, with explicit hypotheses on the interface where a property
depends on documented library behaviour.

JavaScript primitives used by the service are embedded executably:
`String.prototype.includes` as `strIncludes`, `String.prototype.toLowerCase`
(applied only to ASCII Roman-numeral strings) as `strToLower`,
`String.prototype.split(" ")[0]` as `firstWord`, `Set` insertion (insertion
order, first occurrence kept) as `jsSetInsert` / `uniqueList`, and the
stable `Array.prototype.sort` with comparator `(a, b) => b.confidence -
a.confidence` as a stable insertion sort by descending confidence.
`number` division for the confidence score is embedded as exact rational
division.
-/

namespace MusicTheory

/-- Character-list prefix matcher: does the first list occur at the head of
the second? -/
def frontMatches : List Char → List Char → Bool
  | [], _ => true
  | _ :: _, [] => false
  | p :: ps, c :: cs => p == c && frontMatches ps cs

/-- Character-list substring search: does `pat` occur contiguously inside
the second list? -/
def dataIncludes (pat : List Char) : List Char → Bool
  | [] => pat.isEmpty
  | c :: rest => frontMatches pat (c :: rest) || dataIncludes pat rest

/-- JavaScript `s.includes(pat)`: substring containment on strings. -/
def strIncludes (s pat : String) : Bool := dataIncludes pat.data s.data

/-- ASCII lower-casing of one character (JavaScript `toLowerCase` restricted
to the ASCII range, which covers every string it is applied to here). -/
def charLower (c : Char) : Char :=
  if 'A' ≤ c && c ≤ 'Z' then Char.ofNat (c.toNat + 32) else c

/-- JavaScript `s.toLowerCase()` on ASCII strings. -/
def strToLower (s : String) : String := ⟨s.data.map charLower⟩

/-- JavaScript `s.split(" ")[0]`: the characters before the first space. -/
def firstWord (s : String) : String := ⟨s.data.takeWhile (fun c => c != ' ')⟩

/-- JavaScript `Set.add`: append the element unless already present
(the insertion iteration order of a JavaScript `Set` is preserved). -/
def jsSetInsert (l : List String) (x : String) : List String :=
  if x ∈ l then l else l ++ [x]

/-- JavaScript `[...new Set(array)]`: distinct elements in first-occurrence
order. -/
def uniqueList (l : List String) : List String := l.foldl jsSetInsert []

/-- The `NoteData` interface of the service. `number` fields carrying MIDI
data and times are embedded as `Int` / `ℚ`; no claim computes with them. -/
structure NoteData where
  id : String
  name : String
  midiNumber : Int
  timestamp : ℚ
  inKey : Bool
  velocity : ℚ
  active : Bool
deriving DecidableEq, Repr

/-- The `KeySignatureInfo` interface: detected key name, its scale notes and
the confidence score (a `number` in the source, embedded as `ℚ`). -/
structure KeySignatureInfo where
  keyName : String
  notes : List String
  confidence : ℚ
deriving DecidableEq, Repr

/-- The `IntervalInfo` interface. -/
structure IntervalInfo where
  name : String
  semitones : Int
  noteNames : String × String
deriving DecidableEq, Repr

/-- The `ChordInfo` interface. -/
structure ChordInfo where
  name : String
  type : String
  quality : String
  notes : List String
  romanNumeral : Option String
deriving DecidableEq, Repr

/-- The fields of a `Chord.get` result that the service reads: `tonic`
(nullable in tonal), `type` and `notes`. -/
structure TonalChord where
  tonic : Option String
  type : String
  notes : List String
deriving DecidableEq, Repr

/-- Abstract interface to the `@tonaljs/tonal` library functions the
service calls.  Theorems are parametric over this interface. -/
structure TonalLib where
  /-- Embeds `Note.get(name).pc` — pitch-class extraction. -/
  pc : String → String
  /-- Embeds `Scale.detect(notes)`. -/
  scaleDetect : List String → List String
  /-- Embeds `Scale.get(name).notes`. -/
  scaleNotes : String → List String
  /-- Embeds `Interval.distance(note1, note2)`. -/
  intervalDistance : String → String → String
  /-- Embeds `Interval.semitones(name)` — `none` embeds `undefined`. -/
  intervalSemitones : String → Option Int
  /-- Embeds `Chord.detect(pitchClasses)`. -/
  chordDetect : List String → List String
  /-- Embeds `Chord.get(name)` restricted to the fields read by the service. -/
  chordGet : String → TonalChord
  /-- Embeds `Key.majorKey(tonic).scale`. -/
  majorScale : String → List String

/-- The mutable fields of the `MusicTheoryService` class. -/
structure ServiceState where
  currentKey : Option KeySignatureInfo
  allPlayedNotes : List String
  activeNotes : List NoteData
deriving DecidableEq, Repr

/-- The hardcoded `commonKeys` catalog of the service. -/
def commonKeys : List String :=
  ["C major", "G major", "D major", "A major", "E major", "B major",
   "F# major", "Db major", "Ab major", "Eb major", "Bb major", "F major",
   "A minor", "E minor", "B minor", "F# minor", "C# minor", "G# minor",
   "D# minor", "Bb minor", "F minor", "C minor", "G minor", "D minor"]

/-- Embeds `resetNoteCollection()`: clears the played-note set and the cached key. -/
def resetNoteCollection (st : ServiceState) : ServiceState :=
  { st with allPlayedNotes := [], currentKey := none }

/-- Embeds `addNoteToCollection(noteName)`: adds the note's pitch class to the
persistent collection. -/
def addNoteToCollection (lib : TonalLib) (st : ServiceState)
    (noteName : String) : ServiceState :=
  { st with allPlayedNotes := jsSetInsert st.allPlayedNotes (lib.pc noteName) }

/-- Embeds `setActiveNotes(notes)`: replaces the active-note list and adds every
note to the persistent collection. -/
def setActiveNotes (lib : TonalLib) (st : ServiceState)
    (notes : List NoteData) : ServiceState :=
  { st with
    activeNotes := notes
    allPlayedNotes :=
      notes.foldl (fun acc n => jsSetInsert acc (lib.pc n.name))
        st.allPlayedNotes }

/-- Embeds `getCommonKeyMatches(scaleMatches)`: keeps only catalog keys. -/
def getCommonKeyMatches (scaleMatches : List String) : List String :=
  scaleMatches.filter (fun scale => commonKeys.contains scale)

/-- Embeds `detectKey()`: scores catalog keys against the played pitch classes and
caches the best match.  Returns the result together with the state after
the call.  The stable JavaScript sort with comparator
`(a, b) => b.confidence - a.confidence` is embedded as a stable insertion
sort by descending confidence. -/
def detectKey (lib : TonalLib) (st : ServiceState) :
    Option KeySignatureInfo × ServiceState :=
  let allNotes := st.allPlayedNotes
  if allNotes.length < 3 then (none, st)
  else
    let scaleMatches := lib.scaleDetect allNotes
    let keyMatches := getCommonKeyMatches scaleMatches
    if keyMatches.isEmpty then (none, st)
    else
      let keysWithConfidence := keyMatches.map (fun keyName =>
        let scaleNotes := lib.scaleNotes keyName
        let matchingNotes := allNotes.filter (fun note => scaleNotes.contains note)
        let confidence : ℚ := (matchingNotes.length : ℚ) / (allNotes.length : ℚ)
        KeySignatureInfo.mk keyName scaleNotes confidence)
      let sorted := List.insertionSort
        (fun a b => b.confidence ≤ a.confidence) keysWithConfidence
      let top := sorted.headD (KeySignatureInfo.mk "" [] 0)
      (some top, { st with currentKey := some top })

/-- Embeds `isNoteInKey(noteName)`: membership of the note's pitch class in the
cached key's scale; `true` when no key is cached. -/
def isNoteInKey (lib : TonalLib) (st : ServiceState) (noteName : String) : Bool :=
  match st.currentKey with
  | none => true
  | some key => key.notes.contains (lib.pc noteName)

/-- Embeds `processNotes(notes)`: re-tags every note's `inKey` field. -/
def processNotes (lib : TonalLib) (st : ServiceState)
    (notes : List NoteData) : List NoteData :=
  match st.currentKey with
  | none => notes.map (fun note => { note with inKey := true })
  | some _ => notes.map (fun note => { note with inKey := isNoteInKey lib st note.name })

/-- Embeds `getCurrentKey()`. -/
def getCurrentKey (st : ServiceState) : Option KeySignatureInfo :=
  st.currentKey

/-- Builds one `IntervalInfo` for a pair of note names, as in the inner body
of the `detectIntervals` double loop (`Interval.semitones(name) || 0`). -/
def mkIntervalInfo (lib : TonalLib) (note1 note2 : String) : IntervalInfo :=
  let intervalName := lib.intervalDistance note1 note2
  { name := intervalName
    semitones := (lib.intervalSemitones intervalName).getD 0
    noteNames := (note1, note2) }

/-- The nested loop of `detectIntervals`: outer index `i`, inner index
`j = i+1 …`; each step of this recursion is one iteration of the outer
loop. -/
def pairsFrom (lib : TonalLib) : List String → List IntervalInfo
  | [] => []
  | x :: xs => xs.map (mkIntervalInfo lib x) ++ pairsFrom lib xs

/-- Embeds `detectIntervals()`: all pairwise intervals between active notes. -/
def detectIntervals (lib : TonalLib) (st : ServiceState) : List IntervalInfo :=
  let activeNoteNames := st.activeNotes.map (fun n => n.name)
  if activeNoteNames.length < 2 then []
  else pairsFrom lib activeNoteNames

/-- Embeds `getChordQuality(chordType)`: first-match substring classification of
the raw chord-type tag. -/
def getChordQuality (chordType : String) : String :=
  if strIncludes chordType "maj" || chordType == "M" || chordType == "" then
    "major"
  else if strIncludes chordType "min" || chordType == "m" then "minor"
  else if strIncludes chordType "dim" then "diminished"
  else if strIncludes chordType "aug" then "augmented"
  else if strIncludes chordType "sus" then "suspended"
  else chordType

/-- Embeds `getRomanNumeral(rootNote, chordType)`: scale-degree lookup of the root
in the major scale on the cached key's tonic, decorated by quality.  The
out-of-range indexing `numerals[degree]` (impossible for a 7-note scale) is
embedded as the `none` result of the surrounding `try`/`catch`. -/
def getRomanNumeral (lib : TonalLib) (currentKey : Option KeySignatureInfo)
    (rootNote chordType : String) : Option String :=
  match currentKey with
  | none => none
  | some key =>
    if rootNote = "" then none
    else
      let scaleNotes := lib.majorScale (firstWord key.keyName)
      match scaleNotes.findIdx? (fun note => note == rootNote) with
      | none => none
      | some degree =>
        match ["I", "II", "III", "IV", "V", "VI", "VII"][degree]? with
        | none => none
        | some numeral =>
          let quality := getChordQuality chordType
          if quality = "minor" then some (strToLower numeral)
          else if quality = "diminished" then some (strToLower numeral ++ "°")
          else if quality = "augmented" then some (numeral ++ "+")
          else some numeral

/-- Embeds `detectChords()`: chord detection over the distinct pitch classes of
the active notes. -/
def detectChords (lib : TonalLib) (st : ServiceState) : List ChordInfo :=
  let pitchClasses := st.activeNotes.map (fun n => lib.pc n.name)
  let uniquePitchClasses := uniqueList pitchClasses
  if uniquePitchClasses.length < 3 then []
  else
    let possibleChords := lib.chordDetect uniquePitchClasses
    if possibleChords.isEmpty then []
    else
      possibleChords.map (fun chordName =>
        let chord := lib.chordGet chordName
        let rootNote := chord.tonic.getD ""
        { name := chordName
          type := chord.type
          quality := getChordQuality chord.type
          notes := chord.notes
          romanNumeral := getRomanNumeral lib st.currentKey rootNote chord.type })

/-- Specification-side enumeration of the index pairs `(i, j)` with
`i < j < n`, in the iteration order of the `detectIntervals` double loop
(outer index ascending, inner index ascending from `i + 1`). -/
def indexPairs (n : Nat) : List (Nat × Nat) :=
  (List.range n).flatMap
    (fun i => (List.range' (i + 1) (n - (i + 1))).map (fun j => (i, j)))

/-- One public operation of the service, for reasoning about call
sequences. -/
inductive ServiceOp where
  | setActive (notes : List NoteData)
  | addNote (noteName : String)
  | keyDetect
  | intervals
  | chords
  | process (notes : List NoteData)
  | reset
deriving DecidableEq, Repr

/-- State transition of one public operation.  The query operations
(`detectIntervals`, `detectChords`, `processNotes`, `getCurrentKey`) do not
write any field; `detectKey` writes only `currentKey` (through its returned
state). -/
def applyOp (lib : TonalLib) (st : ServiceState) : ServiceOp → ServiceState
  | .setActive notes => setActiveNotes lib st notes
  | .addNote noteName => addNoteToCollection lib st noteName
  | .keyDetect => (detectKey lib st).2
  | .intervals => st
  | .chords => st
  | .process _ => st
  | .reset => resetNoteCollection st

/-- Folds a call sequence over a starting state. -/
def runOps (lib : TonalLib) (st : ServiceState) (ops : List ServiceOp) :
    ServiceState :=
  ops.foldl (applyOp lib) st

/-! ### Concrete instances used to evaluate the theorems on closed inputs -/

/-- Small concrete instantiation of the tonal interface, behaving like the
real library on the handful of inputs the closed evaluations use. -/
def sampleLib : TonalLib where
  pc := fun s => ⟨s.data.takeWhile (fun c => !c.isDigit)⟩
  scaleDetect := fun _ => ["C major"]
  scaleNotes := fun name =>
    if name = "C major" then ["C", "D", "E", "F", "G", "A", "B"] else []
  intervalDistance := fun a b => if a = "C4" && b = "G4" then "5P" else "?"
  intervalSemitones := fun name => if name = "5P" then some 7 else none
  chordDetect := fun _ => ["CM"]
  chordGet := fun name =>
    if name = "CM" then ⟨some "C", "major", ["C", "E", "G"]⟩
    else ⟨none, "unknown", []⟩
  majorScale := fun tonic =>
    if tonic = "C" then ["C", "D", "E", "F", "G", "A", "B"] else []

/-- A `NoteData` value with the given display name. -/
def mkNote (name : String) : NoteData :=
  { id := name, name := name, midiNumber := 0, timestamp := 0,
    inKey := false, velocity := 1, active := true }

/-- The C-major `KeySignatureInfo` as `detectKey` computes it from the
played pitch classes `C`, `E`, `G` (all three explained by the scale). -/
def sampleKeyC : KeySignatureInfo :=
  { keyName := "C major", notes := ["C", "D", "E", "F", "G", "A", "B"],
    confidence := ((3 : ℕ) : ℚ) / ((3 : ℕ) : ℚ) }

/-- State with two played pitch classes. -/
def samplePair : ServiceState := ⟨none, ["C", "E"], []⟩

/-- State with the three played pitch classes of a C-major triad. -/
def sampleTriad : ServiceState := ⟨none, ["C", "E", "G"], []⟩

/-- State with a cached key and no other content. -/
def sampleKeyed : ServiceState := ⟨some sampleKeyC, [], []⟩

/-- State holding two active notes. -/
def sampleActive2 : ServiceState := ⟨none, [], [mkNote "C4", mkNote "G4"]⟩

/-- State holding three active notes and a cached key. -/
def sampleActive3 : ServiceState :=
  ⟨some sampleKeyC, [], [mkNote "C4", mkNote "E4", mkNote "G4"]⟩

/-- A reset-free call sequence. -/
def sampleOps : List ServiceOp :=
  [ServiceOp.addNote "D4", ServiceOp.keyDetect,
   ServiceOp.setActive [mkNote "C4"], ServiceOp.chords,
   ServiceOp.intervals, ServiceOp.process []]

/-! ### Helper lemmas -/

theorem jsSetInsert_subset (l : List String) (x y : String)
    (h : y ∈ l) : y ∈ jsSetInsert l x := by
  unfold jsSetInsert
  split
  · exact h
  · exact List.mem_append_left _ h

theorem jsSetInsert_length_le (l : List String) (x : String) :
    l.length ≤ (jsSetInsert l x).length := by
  unfold jsSetInsert
  split
  · exact Nat.le_refl _
  · simp

theorem foldl_jsSetInsert_subset {α : Type} (f : α → String)
    (notes : List α) (acc : List String) (y : String) (h : y ∈ acc) :
    y ∈ notes.foldl (fun a n => jsSetInsert a (f n)) acc := by
  induction notes generalizing acc with
  | nil => exact h
  | cons n ns ih => exact ih _ (jsSetInsert_subset _ _ _ h)

theorem foldl_jsSetInsert_length_le {α : Type} (f : α → String)
    (notes : List α) (acc : List String) :
    acc.length ≤ (notes.foldl (fun a n => jsSetInsert a (f n)) acc).length := by
  induction notes generalizing acc with
  | nil => exact Nat.le_refl _
  | cons n ns ih =>
    exact Nat.le_trans (jsSetInsert_length_le _ _) (ih _)

theorem detectKey_allPlayedNotes (lib : TonalLib) (st : ServiceState) :
    (detectKey lib st).2.allPlayedNotes = st.allPlayedNotes := by
  unfold detectKey
  dsimp only
  split
  · rfl
  · split <;> rfl

theorem headD_mem {α : Type} (l : List α) (d : α) (h : l ≠ []) :
    l.headD d ∈ l := by
  cases l with
  | nil => exact absurd rfl h
  | cons x xs => exact List.mem_cons_self x xs

/-! ### Claim theorems -/

/-- C1: whenever the pitch-class history holds fewer than 3 distinct pitch
classes, `detectKey()` returns null and leaves the state unchanged. -/
theorem detectKey_requires_three_pitch_classes (lib : TonalLib)
    (st : ServiceState) (h : st.allPlayedNotes.length < 3) :
    detectKey lib st = (none, st) := by
  unfold detectKey
  dsimp only
  rw [if_pos h]

/-- Closed evaluation of C1 on a two-pitch-class history. -/
theorem detectKey_requires_three_pitch_classes_checked :
    samplePair.allPlayedNotes.length < 3 ∧
      detectKey sampleLib samplePair = (none, samplePair) :=
  ⟨by decide, detectKey_requires_three_pitch_classes sampleLib samplePair
    (by decide)⟩

/-- C7: whenever the active notes span fewer than 3 distinct pitch classes,
`detectChords()` returns the empty list. -/
theorem detectChords_requires_three_pitch_classes (lib : TonalLib)
    (st : ServiceState)
    (h : (uniqueList (st.activeNotes.map (fun n => lib.pc n.name))).length < 3) :
    detectChords lib st = [] := by
  unfold detectChords
  dsimp only
  rw [if_pos h]

/-- Closed evaluation of C7 on two active notes sharing two pitch classes. -/
theorem detectChords_requires_three_pitch_classes_checked :
    (uniqueList (sampleActive2.activeNotes.map
      (fun n => sampleLib.pc n.name))).length < 3 ∧
      detectChords sampleLib sampleActive2 = [] :=
  ⟨by decide, detectChords_requires_three_pitch_classes sampleLib sampleActive2
    (by decide)⟩

/-- C9: after `resetNoteCollection()`, the history is empty, the cached key
is null, an immediate `detectKey()` returns null, and `getCurrentKey()`
returns null. -/
theorem reset_clears_history_and_key (lib : TonalLib) (st : ServiceState) :
    (resetNoteCollection st).allPlayedNotes = [] ∧
      (resetNoteCollection st).currentKey = none ∧
      detectKey lib (resetNoteCollection st) = (none, resetNoteCollection st) ∧
      getCurrentKey (resetNoteCollection st) = none := by
  refine ⟨rfl, rfl, ?_, rfl⟩
  unfold detectKey resetNoteCollection
  dsimp only
  rw [if_pos (by simp)]

/-- C10: whenever `detectKey()` returns null, the whole state — in
particular the cached current key reported by `getCurrentKey()` — is left
unchanged. -/
theorem detectKey_none_preserves_key (lib : TonalLib) (st : ServiceState)
    (h : (detectKey lib st).1 = none) :
    (detectKey lib st).2 = st ∧
      getCurrentKey (detectKey lib st).2 = getCurrentKey st := by
  have heq : (detectKey lib st).2 = st := by
    unfold detectKey at h ⊢
    dsimp only at h ⊢
    by_cases hc : st.allPlayedNotes.length < 3
    · rw [if_pos hc]
    · rw [if_neg hc] at h ⊢
      by_cases h2 :
          (getCommonKeyMatches (lib.scaleDetect st.allPlayedNotes)).isEmpty = true
      · rw [if_pos h2]
      · rw [if_neg h2] at h
        exact absurd h (by simp)
  exact ⟨heq, by rw [heq]⟩

/-- Closed evaluation of C10 on an empty history. -/
theorem detectKey_none_preserves_key_checked :
    (detectKey sampleLib (ServiceState.mk none [] [])).2 =
        ServiceState.mk none [] [] ∧
      getCurrentKey (detectKey sampleLib (ServiceState.mk none [] [])).2 =
        getCurrentKey (ServiceState.mk none [] []) :=
  detectKey_none_preserves_key sampleLib (ServiceState.mk none [] []) rfl

theorem contains_eq_decide_mem (l : List String) (x : String) :
    l.contains x = decide (x ∈ l) := by
  by_cases h : x ∈ l <;> simp [List.contains, List.elem_iff, h]

/-- C5: `processNotes` returns exactly one output note per input note (same
length, same order, other fields unchanged); with no cached key every note
is tagged `inKey = true`, and with a cached key a note is tagged `inKey`
exactly when its pitch class is a member of the key's scale-note list. -/
theorem processNotes_totality (lib : TonalLib) (st : ServiceState)
    (notes : List NoteData) :
    (processNotes lib st notes).length = notes.length ∧
      (st.currentKey = none →
        processNotes lib st notes =
          notes.map (fun n => { n with inKey := true })) ∧
      (∀ key, st.currentKey = some key →
        processNotes lib st notes =
          notes.map (fun n =>
            { n with inKey := decide (lib.pc n.name ∈ key.notes) })) := by
  simp only [processNotes, isNoteInKey]
  cases hk : st.currentKey with
  | none =>
    refine ⟨by simp, fun _ => rfl, fun key hke => ?_⟩
    cases hke
  | some key' =>
    refine ⟨by simp, fun hke => ?_, fun key hke => ?_⟩
    · cases hke
    · injection hke with hke'
      subst hke'
      simp [contains_eq_decide_mem]

/-- Closed evaluation of C5 on a keyed state with one in-key and one
out-of-key note. -/
theorem processNotes_totality_checked :
    sampleKeyed.currentKey = some sampleKeyC ∧
      processNotes sampleLib sampleKeyed [mkNote "C4", mkNote "F#4"] =
        [mkNote "C4", mkNote "F#4"].map (fun n =>
          { n with inKey := decide (sampleLib.pc n.name ∈ sampleKeyC.notes) }) :=
  ⟨rfl, (processNotes_totality sampleLib sampleKeyed
    [mkNote "C4", mkNote "F#4"]).2.2 sampleKeyC rfl⟩

theorem applyOp_history_monotonic (lib : TonalLib) (st : ServiceState)
    (op : ServiceOp) (h : op ≠ ServiceOp.reset) :
    (∀ x ∈ st.allPlayedNotes, x ∈ (applyOp lib st op).allPlayedNotes) ∧
      st.allPlayedNotes.length ≤ (applyOp lib st op).allPlayedNotes.length := by
  cases op with
  | setActive notes =>
    exact ⟨fun x hx => foldl_jsSetInsert_subset _ notes _ x hx,
      foldl_jsSetInsert_length_le _ notes _⟩
  | addNote noteName =>
    exact ⟨fun x hx => jsSetInsert_subset _ _ x hx, jsSetInsert_length_le _ _⟩
  | keyDetect =>
    simp only [applyOp, detectKey_allPlayedNotes]
    exact ⟨fun x hx => hx, Nat.le_refl _⟩
  | intervals => exact ⟨fun x hx => hx, Nat.le_refl _⟩
  | chords => exact ⟨fun x hx => hx, Nat.le_refl _⟩
  | process notes => exact ⟨fun x hx => hx, Nat.le_refl _⟩
  | reset => exact absurd rfl h

/-- C8: across any sequence of service calls that contains no explicit
reset, the pitch-class history only grows: every previously present pitch
class remains present and the history size never decreases. -/
theorem history_monotonic (lib : TonalLib) (ops : List ServiceOp)
    (st : ServiceState) (h : ServiceOp.reset ∉ ops) :
    (∀ x ∈ st.allPlayedNotes, x ∈ (runOps lib st ops).allPlayedNotes) ∧
      st.allPlayedNotes.length ≤ (runOps lib st ops).allPlayedNotes.length := by
  induction ops generalizing st with
  | nil => exact ⟨fun x hx => hx, Nat.le_refl _⟩
  | cons op rest ih =>
    have hop : op ≠ ServiceOp.reset := by
      intro he
      subst he
      exact h (List.mem_cons_self _ _)
    have h1 := applyOp_history_monotonic lib st op hop
    have h2 := ih (applyOp lib st op) (fun hm => h (List.mem_cons_of_mem op hm))
    exact ⟨fun x hx => h2.1 x (h1.1 x hx), Nat.le_trans h1.2 h2.2⟩

/-- Closed evaluation of C8 on a reset-free call sequence. -/
theorem history_monotonic_checked :
    ServiceOp.reset ∉ sampleOps ∧
      "C" ∈ (runOps sampleLib sampleTriad sampleOps).allPlayedNotes ∧
      sampleTriad.allPlayedNotes.length ≤
        (runOps sampleLib sampleTriad sampleOps).allPlayedNotes.length :=
  ⟨by decide,
    (history_monotonic sampleLib sampleOps sampleTriad (by decide)).1 "C"
      (by decide),
    (history_monotonic sampleLib sampleOps sampleTriad (by decide)).2⟩

/-- C3 counterexample: the chord-type tag "diminished" (the tag tonal
reports for a diminished triad) contains the substring "dim", yet it is
classified "minor", because the "min" rule fires first on the substring
"min" inside "diminished". -/
theorem getChordQuality_dim_refuted :
    strIncludes "diminished" "dim" = true ∧
      getChordQuality "diminished" = "minor" ∧
      getChordQuality "diminished" ≠ "diminished" := by decide

/-- C3 amended: the quality is derived by the FIRST matching rule, in order
maj/"M"/empty ⇒ major, min/"m" ⇒ minor, dim ⇒ diminished, aug ⇒ augmented,
sus ⇒ suspended, otherwise the tag itself; in particular a tag containing
"dim" is classified "diminished" only when neither the major rule nor the
minor rule matches it. -/
theorem getChordQuality_first_match (t : String) :
    (getChordQuality t = "major" ↔
      (strIncludes t "maj" = true ∨ t = "M" ∨ t = "")) ∧
      (getChordQuality t = "minor" ↔
        (¬(strIncludes t "maj" = true ∨ t = "M" ∨ t = "") ∧
          (strIncludes t "min" = true ∨ t = "m"))) ∧
      (getChordQuality t = "diminished" ↔
        (¬(strIncludes t "maj" = true ∨ t = "M" ∨ t = "") ∧
          ¬(strIncludes t "min" = true ∨ t = "m") ∧
          strIncludes t "dim" = true)) ∧
      (getChordQuality t = "augmented" ↔
        (¬(strIncludes t "maj" = true ∨ t = "M" ∨ t = "") ∧
          ¬(strIncludes t "min" = true ∨ t = "m") ∧
          ¬strIncludes t "dim" = true ∧ strIncludes t "aug" = true)) ∧
      (getChordQuality t = "suspended" ↔
        (¬(strIncludes t "maj" = true ∨ t = "M" ∨ t = "") ∧
          ¬(strIncludes t "min" = true ∨ t = "m") ∧
          ¬strIncludes t "dim" = true ∧ ¬strIncludes t "aug" = true ∧
          strIncludes t "sus" = true)) ∧
      (¬(strIncludes t "maj" = true ∨ t = "M" ∨ t = "") ∧
          ¬(strIncludes t "min" = true ∨ t = "m") ∧
          ¬strIncludes t "dim" = true ∧ ¬strIncludes t "aug" = true ∧
          ¬strIncludes t "sus" = true →
        getChordQuality t = t) := by
  have eA : (strIncludes t "maj" || t == "M" || t == "") = true ↔
      (strIncludes t "maj" = true ∨ t = "M" ∨ t = "") := by
    simp [Bool.or_eq_true, beq_iff_eq, or_assoc]
  have eB : (strIncludes t "min" || t == "m") = true ↔
      (strIncludes t "min" = true ∨ t = "m") := by
    simp [Bool.or_eq_true, beq_iff_eq]
  unfold getChordQuality
  by_cases hA : strIncludes t "maj" = true ∨ t = "M" ∨ t = ""
  · rw [if_pos (eA.mpr hA)]
    exact ⟨iff_of_true rfl hA,
      iff_of_false (by decide) (fun h => h.1 hA),
      iff_of_false (by decide) (fun h => h.1 hA),
      iff_of_false (by decide) (fun h => h.1 hA),
      iff_of_false (by decide) (fun h => h.1 hA),
      fun h => absurd hA h.1⟩
  · rw [if_neg (fun hb => hA (eA.mp hb))]
    by_cases hB : strIncludes t "min" = true ∨ t = "m"
    · rw [if_pos (eB.mpr hB)]
      exact ⟨iff_of_false (by decide) hA,
        iff_of_true rfl ⟨hA, hB⟩,
        iff_of_false (by decide) (fun h => h.2.1 hB),
        iff_of_false (by decide) (fun h => h.2.1 hB),
        iff_of_false (by decide) (fun h => h.2.1 hB),
        fun h => absurd hB h.2.1⟩
    · rw [if_neg (fun hb => hB (eB.mp hb))]
      by_cases hD : strIncludes t "dim" = true
      · rw [if_pos hD]
        exact ⟨iff_of_false (by decide) hA,
          iff_of_false (by decide) (fun h => hB h.2),
          iff_of_true rfl ⟨hA, hB, hD⟩,
          iff_of_false (by decide) (fun h => h.2.2.1 hD),
          iff_of_false (by decide) (fun h => h.2.2.1 hD),
          fun h => absurd hD h.2.2.1⟩
      · rw [if_neg hD]
        by_cases hG : strIncludes t "aug" = true
        · rw [if_pos hG]
          exact ⟨iff_of_false (by decide) hA,
            iff_of_false (by decide) (fun h => hB h.2),
            iff_of_false (by decide) (fun h => hD h.2.2),
            iff_of_true rfl ⟨hA, hB, hD, hG⟩,
            iff_of_false (by decide) (fun h => h.2.2.2.1 hG),
            fun h => absurd hG h.2.2.2.1⟩
        · rw [if_neg hG]
          by_cases hS : strIncludes t "sus" = true
          · rw [if_pos hS]
            exact ⟨iff_of_false (by decide) hA,
              iff_of_false (by decide) (fun h => hB h.2),
              iff_of_false (by decide) (fun h => hD h.2.2),
              iff_of_false (by decide) (fun h => hG h.2.2.2),
              iff_of_true rfl ⟨hA, hB, hD, hG, hS⟩,
              fun h => absurd hS h.2.2.2.2⟩
          · rw [if_neg hS]
            have tmaj : t ≠ "major" :=
              fun he => hA (Or.inl (by rw [he]; decide))
            have tmin : t ≠ "minor" :=
              fun he => hB (Or.inl (by rw [he]; decide))
            have tdim : t ≠ "diminished" :=
              fun he => hB (Or.inl (by rw [he]; decide))
            have taug : t ≠ "augmented" := fun he => hG (by rw [he]; decide)
            have tsus : t ≠ "suspended" := fun he => hS (by rw [he]; decide)
            exact ⟨iff_of_false tmaj hA,
              iff_of_false tmin (fun h => hB h.2),
              iff_of_false tdim (fun h => hD h.2.2),
              iff_of_false taug (fun h => hG h.2.2.2),
              iff_of_false tsus (fun h => hS h.2.2.2.2),
              fun _ => rfl⟩

/-- Closed evaluation of the amended C3 on the tag "dim7". -/
theorem getChordQuality_first_match_checked :
    getChordQuality "dim7" = "diminished" :=
  ((getChordQuality_first_match "dim7").2.2.1).mpr (by decide)

theorem insertionSort_ne_nil {α : Type} (r : α → α → Prop) [DecidableRel r]
    (l : List α) (h : l ≠ []) : List.insertionSort r l ≠ [] := by
  intro hnil
  have hlen := (List.perm_insertionSort r l).length_eq
  rw [hnil] at hlen
  have : l.length = 0 := by simpa using hlen.symm
  exact h (List.length_eq_zero.mp this)

theorem headD_sort_map_spec {α β : Type} (r : β → β → Prop) [DecidableRel r]
    (f : α → β) (l : List α) (d : β) (h : l ≠ []) :
    ∃ a ∈ l, (List.insertionSort r (l.map f)).headD d = f a := by
  have hmem := (List.perm_insertionSort r (l.map f)).mem_iff.mp
    (headD_mem _ d (insertionSort_ne_nil r _
      (fun hnil => h (List.map_eq_nil_iff.mp hnil))))
  obtain ⟨a, ha, heq⟩ := List.mem_map.mp hmem
  exact ⟨a, ha, heq.symm⟩

/-- Characterization of a successful `detectKey` call: the returned record
was built, for some surviving catalog candidate, from that candidate's
scale notes and the matching-fraction confidence. -/
theorem detectKey_some_spec (lib : TonalLib) (st : ServiceState)
    (k : KeySignatureInfo) (st' : ServiceState)
    (h : detectKey lib st = (some k, st')) :
    3 ≤ st.allPlayedNotes.length ∧
      ∃ keyName ∈ getCommonKeyMatches (lib.scaleDetect st.allPlayedNotes),
        k = ⟨keyName, lib.scaleNotes keyName,
          ((st.allPlayedNotes.filter
            (fun note => (lib.scaleNotes keyName).contains note)).length : ℚ) /
            (st.allPlayedNotes.length : ℚ)⟩ := by
  unfold detectKey at h
  dsimp only at h
  by_cases hc : st.allPlayedNotes.length < 3
  · rw [if_pos hc] at h
    cases h
  · rw [if_neg hc] at h
    by_cases he :
        (getCommonKeyMatches (lib.scaleDetect st.allPlayedNotes)).isEmpty = true
    · rw [if_pos he] at h
      cases h
    · rw [if_neg he] at h
      refine ⟨Nat.le_of_not_lt hc, ?_⟩
      have hne : getCommonKeyMatches (lib.scaleDetect st.allPlayedNotes) ≠ [] := by
        intro hnil
        rw [hnil] at he
        exact he rfl
      injection h with h1 h2
      injection h1 with h1
      subst h1
      exact headD_sort_map_spec _ _ _ _ hne

/-- C2: every non-null `detectKey()` result carries a confidence equal to
the number of observed pitch classes lying in the returned key's scale
divided by the total number of observed pitch classes, and (assuming the
scale-detection pass only returns scales explaining every observed pitch
class, as the library documents) this value satisfies `0 < confidence ≤ 1`. -/
theorem detectKey_confidence_bound (lib : TonalLib) (st : ServiceState)
    (k : KeySignatureInfo) (st' : ServiceState)
    (h : detectKey lib st = (some k, st'))
    (hsup : ∀ s ∈ lib.scaleDetect st.allPlayedNotes,
      ∀ note ∈ st.allPlayedNotes, note ∈ lib.scaleNotes s) :
    k.confidence =
      ((st.allPlayedNotes.filter
        (fun note => decide (note ∈ k.notes))).length : ℚ) /
        (st.allPlayedNotes.length : ℚ) ∧
      0 < k.confidence ∧ k.confidence ≤ 1 := by
  obtain ⟨hn3, keyName, hkeyName, hkeq⟩ := detectKey_some_spec lib st k st' h
  have hnotes : k.notes = lib.scaleNotes keyName := by rw [hkeq]
  have hconf : k.confidence =
      ((st.allPlayedNotes.filter
        (fun note => (lib.scaleNotes keyName).contains note)).length : ℚ) /
        (st.allPlayedNotes.length : ℚ) := by rw [hkeq]
  have hpred : (fun note => decide (note ∈ k.notes)) =
      (fun note => (lib.scaleNotes keyName).contains note) := by
    funext note
    rw [hnotes, contains_eq_decide_mem]
  have hnpos : (0 : ℚ) < (st.allPlayedNotes.length : ℚ) := by
    have : 0 < st.allPlayedNotes.length := Nat.lt_of_lt_of_le (by norm_num) hn3
    exact_mod_cast this
  have hscale : keyName ∈ lib.scaleDetect st.allPlayedNotes :=
    (List.mem_filter.mp hkeyName).1
  have hfull : st.allPlayedNotes.filter
      (fun note => (lib.scaleNotes keyName).contains note) = st.allPlayedNotes := by
    apply List.filter_eq_self.mpr
    intro a ha
    rw [contains_eq_decide_mem]
    exact decide_eq_true (hsup keyName hscale a ha)
  refine ⟨by rw [hconf, hpred], ?_, ?_⟩
  · rw [hconf, hfull]
    exact div_pos hnpos hnpos
  · rw [hconf]
    refine (div_le_one hnpos).mpr ?_
    exact_mod_cast List.length_filter_le _ _

/-- Closed evaluation of C2: all three played pitch classes of the C-major
triad are explained by the detected C-major key, so the confidence is
`3 / 3`. -/
theorem detectKey_confidence_bound_checked :
    detectKey sampleLib sampleTriad =
        (some sampleKeyC, ServiceState.mk (some sampleKeyC) ["C", "E", "G"] []) ∧
      sampleKeyC.confidence =
        ((sampleTriad.allPlayedNotes.filter
          (fun note => decide (note ∈ sampleKeyC.notes))).length : ℚ) /
          (sampleTriad.allPlayedNotes.length : ℚ) ∧
      0 < sampleKeyC.confidence ∧ sampleKeyC.confidence ≤ 1 :=
  ⟨rfl, detectKey_confidence_bound sampleLib sampleTriad sampleKeyC
    (ServiceState.mk (some sampleKeyC) ["C", "E", "G"] []) rfl (by decide)⟩

/-- C4: Roman-numeral derivation.  With no cached key or an empty root the
numeral is null; with a cached key, the root is looked up in the major
scale built on the key's tonic — if absent the numeral is null, and if
present at degree `d` the numeral is the `d`-th of I..VII, lower-cased for
minor quality, lower-cased with a degree mark for diminished, with a plus
appended for augmented, and unchanged otherwise.  Every chord returned by
`detectChords` carries exactly this numeral for its tonic and type. -/
theorem getRomanNumeral_spec (lib : TonalLib) :
    (∀ root t, getRomanNumeral lib none root t = none) ∧
      (∀ key t, getRomanNumeral lib (some key) "" t = none) ∧
      (∀ key root t, root ≠ "" →
        root ∉ lib.majorScale (firstWord key.keyName) →
        getRomanNumeral lib (some key) root t = none) ∧
      (∀ key root t d, root ≠ "" →
        (lib.majorScale (firstWord key.keyName)).findIdx?
          (fun note => note == root) = some d →
        ∀ numeral, ["I", "II", "III", "IV", "V", "VI", "VII"][d]? = some numeral →
          (getChordQuality t = "minor" →
            getRomanNumeral lib (some key) root t = some (strToLower numeral)) ∧
            (getChordQuality t = "diminished" →
              getRomanNumeral lib (some key) root t =
                some (strToLower numeral ++ "°")) ∧
            (getChordQuality t = "augmented" →
              getRomanNumeral lib (some key) root t = some (numeral ++ "+")) ∧
            (getChordQuality t ≠ "minor" → getChordQuality t ≠ "diminished" →
              getChordQuality t ≠ "augmented" →
              getRomanNumeral lib (some key) root t = some numeral)) ∧
      (∀ st c, c ∈ detectChords lib st →
        c.romanNumeral = getRomanNumeral lib st.currentKey
          ((lib.chordGet c.name).tonic.getD "") (lib.chordGet c.name).type) := by
  refine ⟨fun root t => rfl, fun key t => ?_, fun key root t hroot habs => ?_,
    fun key root t d hroot hfind numeral hnum => ?_, fun st c hc => ?_⟩
  · unfold getRomanNumeral
    dsimp only
    rw [if_pos rfl]
  · unfold getRomanNumeral
    dsimp only
    rw [if_neg hroot]
    have hnone : (lib.majorScale (firstWord key.keyName)).findIdx?
        (fun note => note == root) = none := by
      apply List.findIdx?_eq_none_iff.mpr
      intro x hx
      exact beq_eq_false_iff_ne.mpr (fun he => habs (he ▸ hx))
    rw [hnone]
  · unfold getRomanNumeral
    dsimp only
    rw [if_neg hroot, hfind]
    dsimp only
    rw [hnum]
    dsimp only
    refine ⟨fun hq => ?_, fun hq => ?_, fun hq => ?_, fun h1 h2 h3 => ?_⟩
    · rw [if_pos hq]
    · rw [if_neg (by rw [hq]; decide), if_pos hq]
    · rw [if_neg (by rw [hq]; decide), if_neg (by rw [hq]; decide), if_pos hq]
    · rw [if_neg h1, if_neg h2, if_neg h3]
  · unfold detectChords at hc
    dsimp only at hc
    by_cases h3 :
        (uniqueList (st.activeNotes.map (fun n => lib.pc n.name))).length < 3
    · rw [if_pos h3] at hc
      cases hc
    · rw [if_neg h3] at hc
      by_cases he : (lib.chordDetect
          (uniqueList (st.activeNotes.map (fun n => lib.pc n.name)))).isEmpty = true
      · rw [if_pos he] at hc
        cases hc
      · rw [if_neg he] at hc
        obtain ⟨chordName, hmem, hceq⟩ := List.mem_map.mp hc
        subst hceq
        rfl

/-- Closed evaluation of C4: in a cached C-major key, a major chord rooted
on G (scale degree 5) is labelled "V". -/
theorem getRomanNumeral_spec_checked :
    getRomanNumeral sampleLib (some sampleKeyC) "G" "maj7" = some "V" :=
  (((getRomanNumeral_spec sampleLib).2.2.2.1 sampleKeyC "G" "maj7" 4
    (by decide) rfl "V" rfl).2.2.2) (by decide) (by decide) (by decide)

theorem indexPairs_eq (n : Nat) :
    indexPairs n =
      (List.range n).flatMap
        (fun i => (List.range (n - (i + 1))).map (fun t => (i, i + 1 + t))) := by
  unfold indexPairs
  simp only [List.range'_eq_map_range, List.map_map]
  rfl

/-- Sanity check of the specification-side enumeration: `(i, j)` is listed
exactly when `i < j < n`. -/
theorem mem_indexPairs (n i j : Nat) : (i, j) ∈ indexPairs n ↔ i < j ∧ j < n := by
  rw [indexPairs_eq]
  simp only [List.mem_flatMap, List.mem_map, List.mem_range]
  constructor
  · rintro ⟨a, ha, t, ht, heq⟩
    cases heq
    omega
  · rintro ⟨hij, hjn⟩
    refine ⟨i, by omega, j - (i + 1), by omega, ?_⟩
    rw [show i + 1 + (j - (i + 1)) = j from by omega]

/-- Sanity check of the specification-side enumeration: no index pair is
listed twice. -/
theorem indexPairs_nodup (n : Nat) : (indexPairs n).Nodup := by
  rw [indexPairs_eq]
  refine List.nodup_flatMap.2 ⟨fun i _ => ?_, ?_⟩
  · refine (List.nodup_range _).map ?_
    intro a b hab
    injection hab with h1 h2
    omega
  · refine (List.nodup_range n).imp ?_
    intro a b hab
    intro x hxa hxb
    obtain ⟨t, _, heqa⟩ := List.mem_map.mp hxa
    obtain ⟨u, _, heqb⟩ := List.mem_map.mp hxb
    rw [← heqa] at heqb
    injection heqb with h1 h2
    exact hab h1.symm

theorem map_getD_range {α β : Type} (f : α → β) (l : List α) (d : α) :
    l.map f = (List.range l.length).map (fun i => f (l.getD i d)) := by
  induction l with
  | nil => rfl
  | cons x xs ih =>
    rw [List.map_cons, List.length_cons, List.range_succ_eq_map, List.map_cons,
      List.map_map]
    congr 1

theorem getD_cons_add {α : Type} (x : α) (xs : List α) (k t : Nat) (d : α) :
    (x :: xs).getD (k + 1 + t) d = xs.getD (k + t) d := by
  rw [show k + 1 + t = (k + t) + 1 from by omega, List.getD_cons_succ]

/-- Refinement of the `detectIntervals` double loop: the produced list is
exactly the image of the index-pair enumeration. -/
theorem pairsFrom_eq_indexPairs (lib : TonalLib) (l : List String) :
    pairsFrom lib l =
      (indexPairs l.length).map
        (fun p => mkIntervalInfo lib (l.getD p.1 "") (l.getD p.2 "")) := by
  induction l with
  | nil => rfl
  | cons x xs ih =>
    simp only [pairsFrom]
    rw [indexPairs_eq, List.length_cons, List.range_succ_eq_map,
      List.flatMap_cons, List.flatMap_map, List.map_append]
    congr 1
    · rw [show xs.length + 1 - (0 + 1) = xs.length from by omega, List.map_map,
        map_getD_range (mkIntervalInfo lib x) xs ""]
      apply List.map_congr_left
      intro t ht
      simp only [Function.comp_apply]
      rw [List.getD_cons_zero, getD_cons_add, Nat.zero_add]
    · rw [List.map_flatMap, ih, indexPairs_eq, List.map_flatMap]
      refine congrArg (List.flatMap (List.range xs.length)) (funext fun i => ?_)
      rw [show xs.length + 1 - (Nat.succ i + 1) = xs.length - (i + 1) from by omega,
        List.map_map, List.map_map]
      apply List.map_congr_left
      intro t ht
      simp only [Function.comp_apply]
      rw [show Nat.succ i = i + 1 from rfl, List.getD_cons_succ,
        show i + 1 + 1 + t = (i + 1 + t) + 1 from by omega, List.getD_cons_succ]

theorem pairsFrom_length (lib : TonalLib) (l : List String) :
    (pairsFrom lib l).length = l.length.choose 2 := by
  induction l with
  | nil => rfl
  | cons x xs ih =>
    simp only [pairsFrom, List.length_append, List.length_map, ih,
      List.length_cons]
    rw [Nat.choose_succ_succ, Nat.choose_one_right]

/-- C6: `detectIntervals()` returns the empty list on fewer than 2 active
notes, and otherwise one `IntervalInfo` per index pair `(i, j)` with
`i < j` over the active-note list — `n * (n - 1) / 2` entries, with no
de-duplication. -/
theorem detectIntervals_all_pairs (lib : TonalLib) (st : ServiceState) :
    (st.activeNotes.length < 2 → detectIntervals lib st = []) ∧
      (detectIntervals lib st).length =
        st.activeNotes.length * (st.activeNotes.length - 1) / 2 ∧
      (2 ≤ st.activeNotes.length →
        detectIntervals lib st =
          (indexPairs st.activeNotes.length).map
            (fun p => mkIntervalInfo lib
              ((st.activeNotes.map (fun n => n.name)).getD p.1 "")
              ((st.activeNotes.map (fun n => n.name)).getD p.2 ""))) := by
  have hlen : (st.activeNotes.map (fun n => n.name)).length =
      st.activeNotes.length := by simp
  unfold detectIntervals
  dsimp only
  rw [hlen]
  by_cases h2 : st.activeNotes.length < 2
  · rw [if_pos h2]
    refine ⟨fun _ => rfl, ?_, fun hge => absurd h2 (Nat.not_lt.mpr hge)⟩
    have : st.activeNotes.length = 0 ∨ st.activeNotes.length = 1 := by omega
    rcases this with h | h <;> rw [h] <;> decide
  · rw [if_neg h2]
    refine ⟨fun hlt => absurd hlt h2, ?_, fun _ => ?_⟩
    · rw [pairsFrom_length, hlen, Nat.choose_two_right]
    · rw [pairsFrom_eq_indexPairs, hlen]

/-- Closed evaluation of C6 on two active notes. -/
theorem detectIntervals_all_pairs_checked :
    2 ≤ sampleActive2.activeNotes.length ∧
      detectIntervals sampleLib sampleActive2 =
        (indexPairs sampleActive2.activeNotes.length).map
          (fun p => mkIntervalInfo sampleLib
            ((sampleActive2.activeNotes.map (fun n => n.name)).getD p.1 "")
            ((sampleActive2.activeNotes.map (fun n => n.name)).getD p.2 "")) :=
  ⟨by decide, (detectIntervals_all_pairs sampleLib sampleActive2).2.2 (by decide)⟩

theorem jsSetInsert_nodup (l : List String) (x : String) (h : l.Nodup) :
    (jsSetInsert l x).Nodup := by
  unfold jsSetInsert
  split
  · exact h
  · next hx => simp [List.nodup_append, h, hx]

theorem foldl_jsSetInsert_nodup {α : Type} (f : α → String) (notes : List α)
    (acc : List String) (h : acc.Nodup) :
    (notes.foldl (fun a n => jsSetInsert a (f n)) acc).Nodup := by
  induction notes generalizing acc with
  | nil => exact h
  | cons n ns ih => exact ih _ (jsSetInsert_nodup _ _ h)

/-- Invariant backing the reading of the history length as the number of
distinct pitch classes: every reachable state has a duplicate-free
history. -/
theorem runOps_history_nodup (lib : TonalLib) (ops : List ServiceOp)
    (st : ServiceState) (h : st.allPlayedNotes.Nodup) :
    (runOps lib st ops).allPlayedNotes.Nodup := by
  induction ops generalizing st with
  | nil => exact h
  | cons op rest ih =>
    refine ih _ ?_
    cases op with
    | setActive notes => exact foldl_jsSetInsert_nodup _ notes _ h
    | addNote noteName => exact jsSetInsert_nodup _ _ h
    | keyDetect =>
      show ((detectKey lib st).2.allPlayedNotes).Nodup
      rw [detectKey_allPlayedNotes]
      exact h
    | intervals => exact h
    | chords => exact h
    | process notes => exact h
    | reset => exact List.nodup_nil

end MusicTheory
